import Mathlib

/-
Verification of the initial block-synchronization core of the
silesiacoin/eth2-docker-compose repository (Prysm spike sources vendored
under .docker/Prysm/prysm-spike).

The development shallowly embeds the Go sources:
  - beacon-chain/sync/rpc_beacon_blocks_by_range.go (Range Server)
  - beacon-chain/sync/rpc_send_request.go           (Range Client)
  - beacon-chain/sync/initial-sync/round_robin.go   (driver)
  - the gossip validation file (validateBeaconBlockPubSub and its caches)
Components whose implementation is not vendored (the Sync Queue FSM of
blocks_queue.go / fsm.go, and the leaky-bucket rate limiter internals) are
modelled from the specification, as flagged on each definition.

Conventions: slots, peer ids and 32-byte digests are modelled as Nat; the
digest 0 stands for the all-zero [32]byte value. Go uint64 arithmetic is
modelled over Nat; wherever a theorem depends on the absence of uint64
wrap-around, explicit bounds appear as hypotheses.
-/

/-- A beacon block as the sync core reads it (spec section 3 "Block"): slot,
proposer index, parent digest and the externally supplied hash-tree-root
digest identifying the block. Digests are Nat, 0 being the zero digest. -/
structure Block where
  slot : Nat
  proposerIndex : Nat
  parentRoot : Nat
  root : Nat
deriving DecidableEq, Repr

/-- A BlocksByRange request: the wire triple {start_slot, step, count}
(pb.BeaconBlocksByRangeRequest). -/
structure RangeRequest where
  startSlot : Nat
  step : Nat
  count : Nat
deriving DecidableEq, Repr

/-- The error kinds surfaced by the Range Server paths under verification
(p2ptypes.ErrInvalidRequest, ErrRateLimited, ErrGeneric as server error). -/
inductive RPCError where
  | invalidRequest
  | rateLimited
  | serverError
deriving DecidableEq, Repr

/-- Embeds Service.validateRangeRequest of rpc_beacon_blocks_by_range.go:
count must be in [1, maxRequestBlocks], step in [1, rangeLimit], startSlot at
most currentSlot + rangeLimit*2, and endSlot - startSlot (which in Nat is
exactly step*(count-1)) at most rangeLimit. The Go checks run in this order
and each failure returns p2ptypes.ErrInvalidRequest. -/
def validateRangeRequest (maxRequestBlocks rangeLimit currentSlot : Nat)
    (r : RangeRequest) : Except RPCError Unit :=
  let highestExpectedSlot := currentSlot + rangeLimit * 2
  if r.count = 0 ∨ r.count > maxRequestBlocks then .error .invalidRequest
  else if r.step = 0 ∨ r.step > rangeLimit then .error .invalidRequest
  else if r.startSlot > highestExpectedSlot then .error .invalidRequest
  else if r.startSlot + r.step * (r.count - 1) - r.startSlot > rangeLimit then
    .error .invalidRequest
  else .ok ()

/-- C3: validateRangeRequest rejects a request with INVALID_REQUEST if and
only if it violates one of the four bounds (count outside [1, maxRequestBlocks],
step outside [1, rangeLimit], startSlot beyond currentSlot + 2*rangeLimit, or
step*(count-1) beyond rangeLimit); a request satisfying all four bounds passes
validation with no error. -/
theorem validateRangeRequest_iff (maxRequestBlocks rangeLimit currentSlot : Nat)
    (r : RangeRequest) :
    (validateRangeRequest maxRequestBlocks rangeLimit currentSlot r
        = Except.error RPCError.invalidRequest
      ↔ (r.count < 1 ∨ r.count > maxRequestBlocks ∨ r.step < 1 ∨ r.step > rangeLimit
          ∨ r.startSlot > currentSlot + 2 * rangeLimit
          ∨ r.step * (r.count - 1) > rangeLimit))
    ∧ (validateRangeRequest maxRequestBlocks rangeLimit currentSlot r = Except.ok ()
      ↔ ¬(r.count < 1 ∨ r.count > maxRequestBlocks ∨ r.step < 1 ∨ r.step > rangeLimit
          ∨ r.startSlot > currentSlot + 2 * rangeLimit
          ∨ r.step * (r.count - 1) > rangeLimit)) := by
  constructor
  · unfold validateRangeRequest
    split_ifs <;> simp <;> omega
  · unfold validateRangeRequest
    split_ifs <;> simp <;> omega

/-- Embeds Service.filterBlocks of rpc_beacon_blocks_by_range.go. A block is
kept when it sits on the requested slot-step grid and is canonical; for
step = 1 a kept block whose parentRoot differs from the threaded previous
root (when that root is non-zero) truncates the batch, returning the blocks
kept so far together with the ErrInvalidParent flag. The Go function receives
prevRoot as a pointer but REBINDS its local copy (prevRoot = &currRoot)
rather than writing through it, so the caller's variable never changes; the
embedding therefore takes the incoming value and returns no updated root,
exactly like the source. The parallel roots slice is fused into Block.root;
the slice-length guard and the IsCanonical error path of the external
fork-choice service are not modelled. -/
def filterBlocks (canonical : Nat → Bool) (step startSlot : Nat) :
    Nat → List Block → List Block × Bool
  | _, [] => ([], false)
  | prevRoot, b :: rest =>
    if ((b.slot - startSlot) % step = 0 ∧ canonical b.root = true) then
      if (prevRoot ≠ 0 ∧ step = 1 ∧ b.parentRoot ≠ prevRoot) then ([], true)
      else
        ((b :: (filterBlocks canonical step startSlot b.root rest).1),
         (filterBlocks canonical step startSlot b.root rest).2)
    else filterBlocks canonical step startSlot prevRoot rest

/-- One framed message of the chunked stream: a success chunk carrying a
block, or an error chunk carrying a response code. -/
inductive Chunk where
  | success (b : Block)
  | errResp (e : RPCError)
deriving DecidableEq, Repr

/-- Embeds Service.writeBlockRangeToStream on the happy store path: the db
query, genesis prepend, dedup and sort are abstracted into the batch list
supplied by the caller (their implementations live outside the vendored
sources); every block kept by filterBlocks is written as one success chunk,
and the invalid-parent outcome is propagated WITHOUT writing an error chunk
(the error-chunk branches of the source concern only db and serialization
failures, which are not modelled). -/
def writeBlockRange (canonical : Nat → Bool) (step startSlot prevRoot : Nat)
    (batch : List Block) : List Chunk × Bool :=
  let res := filterBlocks canonical step startSlot prevRoot batch
  (res.1.map Chunk.success, res.2)

/-- Modelled from the spec: the per-peer, per-topic leaky bucket of the Rate
Limiter (section 4.1) — the limiter implementation is not among the vendored
sources. add decrements remaining and saturates at 0 (Nat subtraction);
validation rejects when remaining < cost without modifying state. -/
structure Bucket where
  capacity : Nat
  remaining : Nat
deriving DecidableEq, Repr

/-- The debit operation of the leaky bucket (rateLimiter.add). -/
def Bucket.add (b : Bucket) (cost : Nat) : Bucket :=
  { b with remaining := b.remaining - cost }

/-- Embeds the batching loop of Service.beaconBlocksByRangeRPCHandler (the
for startSlot <= endReqSlot loop). Per batch it (1) validates the limiter at
cost aBPS — the spec-modelled validateRequest writes a RATE_LIMITED error
chunk on rejection —, (2) guards oversized batches with an INVALID_REQUEST
error chunk, (3) streams the batch through writeBlockRange passing the
handler's prevRoot variable, which — never being written back by
filterBlocks — still holds the 0 that var prevRoot [32]byte was initialized
to, (4) debits the limiter by 1 + (batchEnd - batchStart)/step when
batchStart <= batchEnd, and (5) breaks without an error chunk when the batch
reported an invalid parent. The batch bounds are supplied as a list
(batchSchedule computes them exactly as the loop does) and the per-batch
store reads come from the store function. -/
def serveLoop (canonical : Nat → Bool) (store : Nat → Nat → List Block)
    (step aBPS rangeLimit : Nat) :
    Bucket → List (Nat × Nat) → List Chunk × Bucket × Except RPCError Unit
  | bucket, [] => ([], bucket, .ok ())
  | bucket, (s, e) :: rest =>
    if bucket.remaining < aBPS then
      ([.errResp .rateLimited], bucket, .error .rateLimited)
    else if e - s > rangeLimit then
      ([.errResp .invalidRequest], bucket, .error .invalidRequest)
    else
      let wr := writeBlockRange canonical step s 0 (store s e)
      let bucket' := if s ≤ e then bucket.add (1 + (e - s) / step) else bucket
      if wr.2 then (wr.1, bucket', .ok ())
      else
        let res := serveLoop canonical store step aBPS rangeLimit bucket' rest
        (wr.1 ++ res.1, res.2.1, res.2.2)

/-- The [batchStart, batchEnd] bounds walked by the handler loop: the first
batch covers min(count, aBPS) grid points from startSlot, each later batch
starts one step past the previous end and covers up to aBPS further grid
points, never past endReqSlot = startSlot + step*(count-1). Recursion is on
the number of grid points left; aBPS = 0 (impossible for the flag-backed
BlockBatchLimit) yields no batches. -/
def batchSchedule (step aBPS : Nat) : Nat → Nat → List (Nat × Nat)
  | _, 0 => []
  | s, r + 1 =>
    if h : aBPS = 0 then []
    else
      (s, s + step * (min (r + 1) aBPS - 1)) ::
        batchSchedule step aBPS (s + step * (min (r + 1) aBPS - 1) + step)
          (r + 1 - min (r + 1) aBPS)
termination_by _ r => r
decreasing_by omega

/-- Embeds Service.beaconBlocksByRangeRPCHandler end to end: validate the
request (INVALID_REQUEST error chunk and failure on violation), then stream
the batch schedule through serveLoop. The limiter bucket is threaded
explicitly. -/
def beaconBlocksByRangeRPCHandler (canonical : Nat → Bool)
    (store : Nat → Nat → List Block)
    (maxRequestBlocks rangeLimit currentSlot aBPS : Nat)
    (m : RangeRequest) (bucket : Bucket) :
    List Chunk × Bucket × Except RPCError Unit :=
  match validateRangeRequest maxRequestBlocks rangeLimit currentSlot m with
  | .error e => ([.errResp e], bucket, .error e)
  | .ok () =>
      serveLoop canonical store m.step aBPS rangeLimit bucket
        (batchSchedule m.step aBPS m.startSlot m.count)

example : batchSchedule 1 2 1 4 = [(1, 2), (3, 4)] := by
  simp [batchSchedule]

/-- The value held by filterBlocks' internal previous-root variable after it
has processed a prefix that kept the blocks acc: the root of the last kept
block, or the incoming value when nothing was kept. -/
def lastRootAfter (pr : Nat) : List Block → Nat
  | [] => pr
  | b :: rest => lastRootAfter b.root rest

theorem lastRootAfter_eq_getLast (pr : Nat) (acc : List Block) (h : acc ≠ []) :
    lastRootAfter pr acc = (acc.getLast h).root := by
  induction acc generalizing pr with
  | nil => exact absurd rfl h
  | cons b rest ih =>
      cases rest with
      | nil => simp [lastRootAfter]
      | cons c cs => simpa [lastRootAfter] using ih c.root (by simp)

/-- Splitting a filterBlocks run: if the prefix is fully processed without
truncation, the suffix is processed with the internal previous-root variable
holding lastRootAfter of the prefix's kept blocks. -/
theorem filterBlocks_append (canonical : Nat → Bool) (step startSlot : Nat)
    (pre : List Block) :
    ∀ (pr : Nat) (acc rest : List Block),
      filterBlocks canonical step startSlot pr pre = (acc, false) →
      filterBlocks canonical step startSlot pr (pre ++ rest)
        = (acc ++ (filterBlocks canonical step startSlot (lastRootAfter pr acc) rest).1,
           (filterBlocks canonical step startSlot (lastRootAfter pr acc) rest).2) := by
  induction pre with
  | nil =>
      intro pr acc rest h
      simp only [filterBlocks] at h
      injection h with h1 h2
      subst h1
      simp [lastRootAfter]
  | cons b pre ih =>
      intro pr acc rest h
      by_cases hc : ((b.slot - startSlot) % step = 0 ∧ canonical b.root = true)
      · by_cases hl : (pr ≠ 0 ∧ step = 1 ∧ b.parentRoot ≠ pr)
        · simp only [filterBlocks, if_pos hc, if_pos hl] at h
          exact absurd (congrArg Prod.snd h) (by simp)
        · simp only [filterBlocks, if_pos hc, if_neg hl] at h
          have hacc : acc = b :: (filterBlocks canonical step startSlot b.root pre).1 :=
            (congrArg Prod.fst h).symm
          have hsnd : (filterBlocks canonical step startSlot b.root pre).2 = false :=
            congrArg Prod.snd h
          have hpre : filterBlocks canonical step startSlot b.root pre
              = ((filterBlocks canonical step startSlot b.root pre).1, false) := by
            rw [← hsnd]
          have hrec := ih b.root (filterBlocks canonical step startSlot b.root pre).1 rest hpre
          subst hacc
          simp only [List.cons_append, filterBlocks, if_pos hc, if_neg hl, List.append_eq,
            hrec, lastRootAfter, List.cons_append]
      · simp only [filterBlocks, if_neg hc] at h
        have hrec := ih pr acc rest h
        simp only [List.cons_append, filterBlocks, if_neg hc, List.append_eq, hrec]

/-- C4: for a step = 1 batch in which a canonical (on-grid, trivially, since
step = 1) block b has a parentRoot different from the root of the previously
kept block (that root being non-zero), the Range Server emits exactly the
blocks kept before b as success chunks, debits the limiter, and terminates
the response with no error chunk and no error to the caller: invalid-parent
truncation is never surfaced to the requester. -/
theorem rangeServer_invalidParent_truncates
    (canonical : Nat → Bool) (store : Nat → Nat → List Block)
    (aBPS rangeLimit s e : Nat) (bucket : Bucket)
    (pre post acc : List Block) (b : Block) (rest : List (Nat × Nat))
    (hstore : store s e = pre ++ b :: post)
    (hpre : filterBlocks canonical 1 s 0 pre = (acc, false))
    (hcanon : canonical b.root = true)
    (hprev : lastRootAfter 0 acc ≠ 0)
    (hnl : b.parentRoot ≠ lastRootAfter 0 acc)
    (hrate : aBPS ≤ bucket.remaining)
    (hrange : e - s ≤ rangeLimit)
    (hse : s ≤ e) :
    filterBlocks canonical 1 s 0 (pre ++ b :: post) = (acc, true)
    ∧ serveLoop canonical store 1 aBPS rangeLimit bucket ((s, e) :: rest)
        = (acc.map Chunk.success, bucket.add (1 + (e - s)), Except.ok ()) := by
  have htrunc : filterBlocks canonical 1 s 0 (pre ++ b :: post) = (acc, true) := by
    rw [filterBlocks_append canonical 1 s pre 0 acc (b :: post) hpre]
    have hgrid : ((b.slot - s) % 1 = 0 ∧ canonical b.root = true) := by
      exact ⟨Nat.mod_one _, hcanon⟩
    have hl : (lastRootAfter 0 acc ≠ 0 ∧ (1 : Nat) = 1 ∧ b.parentRoot ≠ lastRootAfter 0 acc) :=
      ⟨hprev, rfl, hnl⟩
    simp [filterBlocks, if_pos hgrid, if_pos hl, hprev, hnl]
  refine ⟨htrunc, ?_⟩
  simp only [serveLoop, writeBlockRange, hstore, htrunc]
  rw [if_neg (by omega), if_neg (by omega), if_pos hse]
  simp [Nat.div_one]

/-- Concrete instance of the invalid-parent truncation, mirroring the
"process non linear blocks" test of the vendored test file: a batch of three
blocks whose third block points back to a stale root is truncated to its
first two blocks, with no error chunk and a normal debit. -/
theorem rangeServer_invalidParent_truncates_app :
    filterBlocks (fun _ => true) 1 1 0
        ([⟨1, 0, 100, 101⟩, ⟨2, 0, 101, 102⟩] ++ ⟨3, 0, 999, 203⟩ :: [])
      = ([⟨1, 0, 100, 101⟩, ⟨2, 0, 101, 102⟩], true)
    ∧ serveLoop (fun _ => true)
        (fun _ _ => [⟨1, 0, 100, 101⟩, ⟨2, 0, 101, 102⟩, ⟨3, 0, 999, 203⟩])
        1 64 1024 ⟨640, 640⟩ [(1, 3)]
      = ([Chunk.success ⟨1, 0, 100, 101⟩, Chunk.success ⟨2, 0, 101, 102⟩],
         Bucket.add ⟨640, 640⟩ (1 + (3 - 1)), Except.ok ()) :=
  rangeServer_invalidParent_truncates (fun _ => true)
    (fun _ _ => [⟨1, 0, 100, 101⟩, ⟨2, 0, 101, 102⟩, ⟨3, 0, 999, 203⟩])
    64 1024 1 3 ⟨640, 640⟩
    [⟨1, 0, 100, 101⟩, ⟨2, 0, 101, 102⟩] [] [⟨1, 0, 100, 101⟩, ⟨2, 0, 101, 102⟩]
    ⟨3, 0, 999, 203⟩ []
    (by decide) (by decide) (by decide) (by decide) (by decide)
    (by decide) (by decide) (by decide)

/-- The store used to exhibit the lost cross-batch threading: batch [1, 2]
holds a linear chain ending in root 102, batch [3, 4] opens with a block
whose parentRoot 999 matches nothing (in particular not 102). -/
def crossBatchStore : Nat → Nat → List Block := fun s _ =>
  if s = 1 then [⟨1, 0, 100, 101⟩, ⟨2, 0, 101, 102⟩]
  else [⟨3, 0, 999, 203⟩, ⟨4, 0, 203, 204⟩]

/-- C1 (refuted: the code does not thread prev_root across batches). For the
request {start_slot 1, step 1, count 4} served in two batches of 2, the
first batch ends with the block of root 102 while the first block of the
second batch carries parentRoot 999 ≠ 102; were the previous root threaded
across filterBlocks calls as the claim states, the second batch would be
truncated before its first block (third conjunct). Instead the full handler
emits all four blocks: Go's filterBlocks rebinds its local prevRoot pointer
(prevRoot = &currRoot) instead of writing through it, so the handler's
variable stays at the zero digest and every batch is filtered with
prev_root 0, disabling the cross-batch linearity check. -/
theorem rangeServer_crossBatch_prevRoot_lost :
    beaconBlocksByRangeRPCHandler (fun _ => true) crossBatchStore 1024 1024 100 2
        ⟨1, 1, 4⟩ ⟨1000, 1000⟩
      = ([Chunk.success ⟨1, 0, 100, 101⟩, Chunk.success ⟨2, 0, 101, 102⟩,
          Chunk.success ⟨3, 0, 999, 203⟩, Chunk.success ⟨4, 0, 203, 204⟩],
         ⟨1000, 996⟩, Except.ok ())
    ∧ (⟨3, 0, 999, 203⟩ : Block).parentRoot ≠ (⟨2, 0, 101, 102⟩ : Block).root
    ∧ (filterBlocks (fun _ => true) 1 3 102 (crossBatchStore 3 4)).1 = [] := by
  have hsched : batchSchedule 1 2 1 4 = [(1, 2), (3, 4)] := by
    simp [batchSchedule]
  have hval : validateRangeRequest 1024 1024 100 ⟨1, 1, 4⟩ = Except.ok () := rfl
  refine ⟨?_, by decide, by decide⟩
  unfold beaconBlocksByRangeRPCHandler
  rw [hval, hsched]
  rfl

/-- The second component (final bucket and outcome) of a single-batch serve:
an admitted batch always debits exactly 1 + (e - s)/step and completes
without error, whether or not the batch was truncated by an invalid parent. -/
theorem serveLoop_single_snd (canonical : Nat → Bool) (store : Nat → Nat → List Block)
    (step aBPS rangeLimit : Nat) (bucket : Bucket) (s e : Nat)
    (hrate : aBPS ≤ bucket.remaining) (hrange : e - s ≤ rangeLimit) (hse : s ≤ e) :
    (serveLoop canonical store step aBPS rangeLimit bucket [(s, e)]).2
      = (bucket.add (1 + (e - s) / step), Except.ok ()) := by
  simp only [serveLoop]
  rw [if_neg (by omega), if_neg (by omega), if_pos hse]
  cases h : (writeBlockRange canonical step s 0 (store s e)).2 <;> simp [h, serveLoop]

/-- Iterated requests against the same bucket: each round runs the batching
loop on the given schedule, stopping at the first failed request. This
mirrors the rate-limit overflow test, which replays an identical request
until the limiter rejects it. -/
def repeatServe (canonical : Nat → Bool) (store : Nat → Nat → List Block)
    (step aBPS rangeLimit : Nat) (sched : List (Nat × Nat)) :
    Nat → Bucket → Bucket × Except RPCError Unit
  | 0, bucket => (bucket, .ok ())
  | k + 1, bucket =>
    match serveLoop canonical store step aBPS rangeLimit bucket sched with
    | (_, bucket', .ok _) => repeatServe canonical store step aBPS rangeLimit sched k bucket'
    | (_, bucket', .error e) => (bucket', .error e)

/-- Draining lemma: starting from remaining = bps * k, k single-batch
requests of bps grid points each (step 1) all succeed and leave remaining
exactly 0. -/
theorem repeatServe_drain (canonical : Nat → Bool) (store : Nat → Nat → List Block)
    (bps rangeLimit srt cap : Nat) (h1 : 1 ≤ bps) (hrl : bps - 1 ≤ rangeLimit) :
    ∀ k, repeatServe canonical store 1 bps rangeLimit [(srt, srt + (bps - 1))] k
        ⟨cap, bps * k⟩
      = (⟨cap, 0⟩, Except.ok ()) := by
  intro k
  induction k with
  | zero => simp [repeatServe]
  | succ n ih =>
      have hble : bps ≤ bps * (n + 1) := by
        calc bps = bps * 1 := (Nat.mul_one bps).symm
        _ ≤ bps * (n + 1) := Nat.mul_le_mul_left bps (by omega)
      have hsnd := serveLoop_single_snd canonical store 1 bps rangeLimit
        ⟨cap, bps * (n + 1)⟩ srt (srt + (bps - 1)) hble (by omega) (by omega)
      have habk : Bucket.add ⟨cap, bps * (n + 1)⟩ (1 + ((srt + (bps - 1)) - srt) / 1)
          = (⟨cap, bps * n⟩ : Bucket) := by
        simp only [Bucket.add, Nat.mul_succ]
        congr 1
        omega
      rw [habk] at hsnd
      obtain ⟨c, hc⟩ : ∃ c, serveLoop canonical store 1 bps rangeLimit ⟨cap, bps * (n + 1)⟩
            [(srt, srt + (bps - 1))]
          = (c, ⟨cap, bps * n⟩, Except.ok ()) :=
        ⟨(serveLoop canonical store 1 bps rangeLimit ⟨cap, bps * (n + 1)⟩
            [(srt, srt + (bps - 1))]).1, by rw [← hsnd]⟩
      simp only [repeatServe, hc]
      exact ih

/-- C9: (a) an admitted batch [s, e] (with s ≤ e) debits the peer's topic
bucket by exactly 1 + (e - s)/step — recovering the previous remaining when
the cost fits; (b) a request arriving when remaining is below the
per-request cost aBPS is answered with RATE_LIMITED and debits nothing;
(c) with capacity bps * burst, burst single-batch requests of bps grid
points each (step 1, count bps) succeed and leave remaining = 0, after which
a further identical request is answered with RATE_LIMITED. -/
theorem rateLimiter_debit_and_overflow :
    (∀ (canonical : Nat → Bool) (store : Nat → Nat → List Block)
       (step aBPS rangeLimit : Nat) (bucket : Bucket) (s e : Nat),
      aBPS ≤ bucket.remaining → e - s ≤ rangeLimit → s ≤ e →
      (serveLoop canonical store step aBPS rangeLimit bucket [(s, e)]).2.1
          = bucket.add (1 + (e - s) / step)
        ∧ (1 + (e - s) / step ≤ bucket.remaining →
            (serveLoop canonical store step aBPS rangeLimit bucket [(s, e)]).2.1.remaining
              + (1 + (e - s) / step) = bucket.remaining))
    ∧ (∀ (canonical : Nat → Bool) (store : Nat → Nat → List Block)
         (step aBPS rangeLimit : Nat) (bucket : Bucket) (s e : Nat)
         (rest : List (Nat × Nat)),
        bucket.remaining < aBPS →
        serveLoop canonical store step aBPS rangeLimit bucket ((s, e) :: rest)
          = ([Chunk.errResp RPCError.rateLimited], bucket, Except.error RPCError.rateLimited))
    ∧ (∀ (canonical : Nat → Bool) (store : Nat → Nat → List Block)
         (bps burst srt rangeLimit : Nat), 1 ≤ bps → bps - 1 ≤ rangeLimit →
        repeatServe canonical store 1 bps rangeLimit [(srt, srt + (bps - 1))] burst
            ⟨bps * burst, bps * burst⟩
          = (⟨bps * burst, 0⟩, Except.ok ())
        ∧ ∀ rest : List (Nat × Nat),
            serveLoop canonical store 1 bps rangeLimit ⟨bps * burst, 0⟩
                ((srt, srt + (bps - 1)) :: rest)
              = ([Chunk.errResp RPCError.rateLimited], ⟨bps * burst, 0⟩,
                 Except.error RPCError.rateLimited)) := by
  refine ⟨?_, ?_, ?_⟩
  · intro canonical store step aBPS rangeLimit bucket s e hrate hrange hse
    have hsnd := serveLoop_single_snd canonical store step aBPS rangeLimit bucket s e
      hrate hrange hse
    constructor
    · exact congrArg Prod.fst hsnd
    · intro hcost
      have := congrArg Prod.fst hsnd
      simp only [this, Bucket.add]
      omega
  · intro canonical store step aBPS rangeLimit bucket s e rest hlt
    simp only [serveLoop]
    rw [if_pos hlt]
  · intro canonical store bps burst srt rangeLimit h1 hrl
    refine ⟨repeatServe_drain canonical store bps rangeLimit srt (bps * burst) h1 hrl burst, ?_⟩
    intro rest
    simp only [serveLoop]
    rw [if_pos (by omega)]

/-- Concrete instance of the debit/overflow behavior: aBPS 2, capacity 6,
three admitted requests drain the bucket to 0 and the fourth is answered
with RATE_LIMITED. -/
theorem rateLimiter_debit_and_overflow_app :
    (serveLoop (fun _ => true) (fun _ _ => []) 1 2 10 ⟨6, 6⟩ [(1, 2)]).2.1
        = Bucket.add ⟨6, 6⟩ 2
    ∧ serveLoop (fun _ => true) (fun _ _ => []) 1 2 10 ⟨6, 1⟩ [(1, 2)]
        = ([Chunk.errResp RPCError.rateLimited], ⟨6, 1⟩, Except.error RPCError.rateLimited)
    ∧ repeatServe (fun _ => true) (fun _ _ => []) 1 2 10 [(100, 101)] 3 ⟨6, 6⟩
        = (⟨6, 0⟩, Except.ok ())
    ∧ serveLoop (fun _ => true) (fun _ _ => []) 1 2 10 ⟨6, 0⟩ [(100, 101)]
        = ([Chunk.errResp RPCError.rateLimited], ⟨6, 0⟩, Except.error RPCError.rateLimited) := by
  obtain ⟨hdebit, hreject, hscen⟩ := rateLimiter_debit_and_overflow
  refine ⟨?_, ?_, ?_, ?_⟩
  · exact (hdebit (fun _ => true) (fun _ _ => []) 1 2 10 ⟨6, 6⟩ 1 2
      (by decide) (by decide) (by decide)).1
  · exact hreject (fun _ => true) (fun _ _ => []) 1 2 10 ⟨6, 1⟩ 1 2 [] (by decide)
  · exact (hscen (fun _ => true) (fun _ _ => []) 2 3 100 10 (by decide) (by decide)).1
  · exact (hscen (fun _ => true) (fun _ _ => []) 2 3 100 10 (by decide) (by decide)).2 []

/-- The client-side fetch error (sync.ErrInvalidFetchedData). -/
inductive ClientError where
  | invalidFetchedData
deriving DecidableEq, Repr

/-- Embeds the chunk-consumption loop of SendBeaconBlocksByRangeRequest
(rpc_send_request.go): the stream's success chunks arrive as a list (end of
list = EOF); the index i and the prevSlot variable thread through the loop,
and the source's checks run in order — (1) i ≥ count or i ≥ maxRequestBlocks,
(2) slot outside [startSlot, startSlot + count*step), (3) for i ≠ 0,
prevSlot ≥ slot or (slot − prevSlot) % step ≠ 0 — each failing with
ErrInvalidFetchedData; otherwise the block is accumulated. Stream transport
errors and the optional block processor are not modelled. -/
def consumeChunks (req : RangeRequest) (maxRequestBlocks : Nat) :
    Nat → Nat → List Block → Except ClientError (List Block)
  | _, _, [] => .ok []
  | i, prevSlot, blk :: rest =>
    if i ≥ req.count ∨ i ≥ maxRequestBlocks then .error .invalidFetchedData
    else if blk.slot < req.startSlot ∨ blk.slot ≥ req.startSlot + req.count * req.step then
      .error .invalidFetchedData
    else if i ≠ 0 ∧ (prevSlot ≥ blk.slot ∨ (blk.slot - prevSlot) % req.step ≠ 0) then
      .error .invalidFetchedData
    else
      match consumeChunks req maxRequestBlocks (i + 1) blk.slot rest with
      | .ok blks => .ok (blk :: blks)
      | .error e => .error e

/-- SendBeaconBlocksByRangeRequest's loop entered at index 0 with the
zero-initialized prevSlot. -/
def sendBeaconBlocksByRangeRequest (req : RangeRequest) (maxRequestBlocks : Nat)
    (chunks : List Block) : Except ClientError (List Block) :=
  consumeChunks req maxRequestBlocks 0 0 chunks

/-- The slot against which the block at position j is compared: the ambient
prevSlot value p for the first position, the previous block's slot
otherwise. -/
def prevSlotOf (p : Nat) (l : List Block) : Nat → Nat
  | 0 => p
  | t + 1 => (l.getD t ⟨0, 0, 0, 0⟩).slot

/-- The declarative violation condition at position j of the chunk list, in
a context where the list is processed starting at index i with previous slot
p: the absolute index i + j reaches count or maxRequestBlocks, the block's
slot leaves [startSlot, startSlot + count*step), or (at positive absolute
index) the slot fails to be strictly above its predecessor's by a multiple
of step. -/
def violAt (req : RangeRequest) (maxRequestBlocks i p : Nat) (l : List Block)
    (j : Nat) : Prop :=
  i + j ≥ req.count ∨ i + j ≥ maxRequestBlocks
  ∨ (l.getD j ⟨0, 0, 0, 0⟩).slot < req.startSlot
  ∨ (l.getD j ⟨0, 0, 0, 0⟩).slot ≥ req.startSlot + req.count * req.step
  ∨ (0 < i + j
      ∧ (prevSlotOf p l j ≥ (l.getD j ⟨0, 0, 0, 0⟩).slot
        ∨ ((l.getD j ⟨0, 0, 0, 0⟩).slot - prevSlotOf p l j) % req.step ≠ 0))

/-- A stream of chunks violates the client invariants when some position
does. -/
def chunkViolation (req : RangeRequest) (maxRequestBlocks i p : Nat)
    (l : List Block) : Prop :=
  ∃ j < l.length, violAt req maxRequestBlocks i p l j

theorem prevSlotOf_shift (p : Nat) (b : Block) (rest : List Block) (j : Nat) :
    prevSlotOf p (b :: rest) (j + 1) = prevSlotOf b.slot rest j := by
  cases j with
  | zero => rfl
  | succ t => simp [prevSlotOf, List.getD_cons_succ]

theorem violAt_shift (req : RangeRequest) (maxRequestBlocks i p : Nat)
    (b : Block) (rest : List Block) (j : Nat) :
    violAt req maxRequestBlocks i p (b :: rest) (j + 1)
      ↔ violAt req maxRequestBlocks (i + 1) b.slot rest j := by
  simp only [violAt, prevSlotOf_shift, List.getD_cons_succ, Nat.add_succ, Nat.succ_add]

theorem consumeChunks_ok_of_not_viol (req : RangeRequest) (mrb : Nat) :
    ∀ (l : List Block) (i p : Nat), ¬chunkViolation req mrb i p l →
      consumeChunks req mrb i p l = .ok l := by
  intro l
  induction l with
  | nil => intro i p _; rfl
  | cons b rest ih =>
      intro i p hnv
      have h0 : ¬violAt req mrb i p (b :: rest) 0 := fun h => hnv ⟨0, by simp, h⟩
      simp only [violAt, List.getD_cons_zero, Nat.add_zero, prevSlotOf] at h0
      push_neg at h0
      obtain ⟨h1, h2, h3, h4, h5⟩ := h0
      have hrest : ¬chunkViolation req mrb (i + 1) b.slot rest := by
        rintro ⟨j, hj, hv⟩
        exact hnv ⟨j + 1, by simp; omega,
          (violAt_shift req mrb i p b rest j).mpr hv⟩
      have hc3 : ¬(i ≠ 0 ∧ (p ≥ b.slot ∨ (b.slot - p) % req.step ≠ 0)) := by
        rintro ⟨hi0, hor⟩
        obtain ⟨hlt, hmod⟩ := h5 (Nat.pos_of_ne_zero hi0)
        cases hor with
        | inl h => omega
        | inr h => exact h hmod
      simp only [consumeChunks]
      rw [if_neg (by omega), if_neg (by omega), if_neg hc3, ih (i + 1) b.slot hrest]

theorem consumeChunks_error_of_viol (req : RangeRequest) (mrb : Nat) :
    ∀ (l : List Block) (i p : Nat), chunkViolation req mrb i p l →
      consumeChunks req mrb i p l = .error .invalidFetchedData := by
  intro l
  induction l with
  | nil => rintro i p ⟨j, hj, -⟩; simp at hj
  | cons b rest ih =>
      rintro i p ⟨j, hj, hv⟩
      simp only [consumeChunks]
      by_cases hc1 : (i ≥ req.count ∨ i ≥ mrb)
      · rw [if_pos hc1]
      · rw [if_neg hc1]
        by_cases hc2 : (b.slot < req.startSlot ∨ b.slot ≥ req.startSlot + req.count * req.step)
        · rw [if_pos hc2]
        · rw [if_neg hc2]
          by_cases hc3 : (i ≠ 0 ∧ (p ≥ b.slot ∨ (b.slot - p) % req.step ≠ 0))
          · rw [if_pos hc3]
          · rw [if_neg hc3]
            cases j with
            | zero =>
                exfalso
                simp only [violAt, List.getD_cons_zero, Nat.add_zero, prevSlotOf] at hv
                rcases hv with h | h | h | h | ⟨hpos, hor⟩
                · exact hc1 (Or.inl h)
                · exact hc1 (Or.inr h)
                · exact hc2 (Or.inl h)
                · exact hc2 (Or.inr h)
                · exact hc3 ⟨by omega, hor⟩
            | succ t =>
                have hj' : t < rest.length := by simp at hj; omega
                have hrec := ih (i + 1) b.slot
                  ⟨t, hj', (violAt_shift req mrb i p b rest t).mp hv⟩
                rw [hrec]

theorem chain_of_not_viol (req : RangeRequest) (mrb : Nat) (l : List Block)
    (hnv : ¬chunkViolation req mrb 0 0 l) :
    List.Chain' (fun a b => a.slot < b.slot) l := by
  rw [List.chain'_iff_get]
  intro t ht
  have hjlt : t + 1 < l.length := by omega
  have hnv1 : ¬violAt req mrb 0 0 l (t + 1) := fun h => hnv ⟨t + 1, hjlt, h⟩
  simp only [violAt, prevSlotOf] at hnv1
  push_neg at hnv1
  obtain ⟨-, -, -, -, h5⟩ := hnv1
  obtain ⟨hlt, -⟩ := h5 (by omega)
  rw [List.getD_eq_getElem l _ (by omega), List.getD_eq_getElem l _ hjlt] at hlt
  simpa using hlt

/-- C2: the client loop of SendBeaconBlocksByRangeRequest returns
INVALID_FETCHED_DATA exactly when some chunk position violates the index,
range or order/step invariants; a violation-free stream is returned in full,
with strictly increasing slots. The bounds hypotheses delimit the domain on
which the Nat embedding coincides with Go's uint64 arithmetic (the loop is
reached only with step ≥ 1, and no quantity wraps). -/
theorem sendBeaconBlocksByRange_spec (req : RangeRequest) (maxRequestBlocks : Nat)
    (chunks : List Block) (_hstep : 1 ≤ req.step)
    (_hfit : req.startSlot + req.count * req.step < 2 ^ 64)
    (_hslots : ∀ b ∈ chunks, b.slot < 2 ^ 64) :
    (sendBeaconBlocksByRangeRequest req maxRequestBlocks chunks
        = Except.error ClientError.invalidFetchedData
      ↔ chunkViolation req maxRequestBlocks 0 0 chunks)
    ∧ (¬chunkViolation req maxRequestBlocks 0 0 chunks →
        sendBeaconBlocksByRangeRequest req maxRequestBlocks chunks = Except.ok chunks
        ∧ List.Chain' (fun a b => a.slot < b.slot) chunks) := by
  constructor
  · constructor
    · intro herr
      by_contra hnv
      have hok := consumeChunks_ok_of_not_viol req maxRequestBlocks chunks 0 0 hnv
      rw [sendBeaconBlocksByRangeRequest, hok] at herr
      exact absurd herr (by simp)
    · intro hv
      exact consumeChunks_error_of_viol req maxRequestBlocks chunks 0 0 hv
  · intro hnv
    exact ⟨consumeChunks_ok_of_not_viol req maxRequestBlocks chunks 0 0 hnv,
      chain_of_not_viol req maxRequestBlocks chunks hnv⟩

instance (req : RangeRequest) (maxRequestBlocks i p : Nat) (l : List Block) (j : Nat) :
    Decidable (violAt req maxRequestBlocks i p l j) := by
  unfold violAt; infer_instance

instance (req : RangeRequest) (maxRequestBlocks i p : Nat) (l : List Block) :
    Decidable (chunkViolation req maxRequestBlocks i p l) := by
  unfold chunkViolation; infer_instance

/-- Concrete instance of the client validation: the request
{start 10, step 2, count 3} with the conformant stream of slots 10, 12, 14
is accepted in full, in strictly increasing slot order. -/
theorem sendBeaconBlocksByRange_spec_app :
    sendBeaconBlocksByRangeRequest ⟨10, 2, 3⟩ 1024
        [⟨10, 0, 0, 1⟩, ⟨12, 0, 1, 2⟩, ⟨14, 0, 2, 3⟩]
      = Except.ok [⟨10, 0, 0, 1⟩, ⟨12, 0, 1, 2⟩, ⟨14, 0, 2, 3⟩]
    ∧ List.Chain' (fun a b : Block => a.slot < b.slot)
        ([⟨10, 0, 0, 1⟩, ⟨12, 0, 1, 2⟩, ⟨14, 0, 2, 3⟩] : List Block) :=
  (sendBeaconBlocksByRange_spec ⟨10, 2, 3⟩ 1024
      [⟨10, 0, 0, 1⟩, ⟨12, 0, 1, 2⟩, ⟨14, 0, 2, 3⟩]
      (by decide) (by decide) (by decide)).2
    (by decide)

/-- The chain/db view consumed by the round-robin driver
(initial-sync/round_robin.go): head slot, the slot starting the finalized
epoch, and the two local block predicates keyed by root. -/
structure ChainView where
  headSlot : Nat
  finalizedSlot : Nat
  dbHasBlock : Nat → Bool
  hasInitSyncBlock : Nat → Bool

/-- Embeds Service.isProcessedBlock: a block is a duplicate when its slot is
at or below the finalized slot, or its root is in the db or the init-sync
cache (the StartSlot error path, which reports not-processed, is not
modelled). -/
def isProcessedBlock (cv : ChainView) (b : Block) : Bool :=
  decide (b.slot ≤ cv.finalizedSlot) || cv.dbHasBlock b.root || cv.hasInitSyncBlock b.root

/-- The error outcomes of Service.processBatchedBlocks, by source message:
"0 blocks provided into method", "no good blocks in batch",
errParentDoesNotExist, and "expected linear block list". -/
inductive BatchError where
  | emptyInput
  | noGoodBlocks
  | parentMissing
  | nonLinear
deriving DecidableEq, Repr

/-- Embeds the leading skip loop of Service.processBatchedBlocks: while the
head slot has reached the first block and that block is already processed,
drop it, failing with noGoodBlocks when it is the only block left. -/
def skipProcessed (cv : ChainView) : Block → List Block → Except BatchError (Block × List Block)
  | b, rest =>
    if cv.headSlot ≥ b.slot ∧ isProcessedBlock cv b = true then
      match rest with
      | [] => .error .noGoodBlocks
      | c :: rest' => skipProcessed cv c rest'
    else .ok (b, rest)

/-- Embeds the linearity loop of Service.processBatchedBlocks: each later
block's parentRoot must equal the hash-tree-root (Block.root) of the block
before it. -/
def checkLinear : Nat → List Block → Bool
  | _, [] => true
  | prevRoot, b :: rest => (b.parentRoot == prevRoot) && checkLinear b.root rest

/-- Embeds Service.processBatchedBlocks: reject an empty batch, skip the
already-processed leading blocks, require the first remaining block's parent
to be known locally (db or init-sync cache), require the batch to be linear
by hash-tree-root, and only then hand (blocks, roots) to the batch receiver
— modelled by returning the receiver's arguments. -/
def processBatchedBlocks (cv : ChainView) (blks : List Block) :
    Except BatchError (List Block × List Nat) :=
  match blks with
  | [] => .error .emptyInput
  | b :: rest =>
    match skipProcessed cv b rest with
    | .error e => .error e
    | .ok (fb, frest) =>
      if cv.dbHasBlock fb.parentRoot = true ∨ cv.hasInitSyncBlock fb.parentRoot = true then
        if checkLinear fb.root frest = true then
          .ok (fb :: frest, (fb :: frest).map (fun x => x.root))
        else .error .nonLinear
      else .error .parentMissing

theorem skipProcessed_spec (cv : ChainView) :
    ∀ (rest : List Block) (b fb : Block) (frest : List Block),
      skipProcessed cv b rest = .ok (fb, frest) →
      ∃ pre, b :: rest = pre ++ fb :: frest
        ∧ ∀ x ∈ pre, cv.headSlot ≥ x.slot ∧ isProcessedBlock cv x = true := by
  intro rest
  induction rest with
  | nil =>
      intro b fb frest h
      simp only [skipProcessed] at h
      by_cases hp : (cv.headSlot ≥ b.slot ∧ isProcessedBlock cv b = true)
      · rw [if_pos hp] at h; exact absurd h (by simp)
      · rw [if_neg hp] at h
        injection h with h1
        injection h1 with h2 h3
        exact ⟨[], by simp [← h2, ← h3]⟩
  | cons c rest' ih =>
      intro b fb frest h
      simp only [skipProcessed] at h
      by_cases hp : (cv.headSlot ≥ b.slot ∧ isProcessedBlock cv b = true)
      · rw [if_pos hp] at h
        obtain ⟨pre, hpre, hall⟩ := ih c fb frest h
        exact ⟨b :: pre, by simp [hpre], by
          intro x hx
          rcases List.mem_cons.mp hx with rfl | hx
          · exact hp
          · exact hall x hx⟩
      · rw [if_neg hp] at h
        injection h with h1
        injection h1 with h2 h3
        exact ⟨[], by simp [← h2, ← h3]⟩

theorem chain_of_checkLinear :
    ∀ (l : List Block) (b : Block), checkLinear b.root l = true →
      List.Chain' (fun a c => c.parentRoot = a.root) (b :: l) := by
  intro l
  induction l with
  | nil => intro b _; simp
  | cons c l' ih =>
      intro b h
      simp only [checkLinear, Bool.and_eq_true, beq_iff_eq] at h
      exact List.chain'_cons.mpr ⟨h.1, ih c h.2⟩

/-- C10: processBatchedBlocks hands a batch to the batch receiver only when,
after skipping the already-processed leading blocks, the batch is non-empty,
the first remaining block's parent is known locally (db or init-sync cache),
and every later block's parentRoot equals the hash-tree-root of the block
immediately before it; the roots passed alongside are the blocks' own
hash-tree-roots. Any violation yields an error instead of the .ok carrying
the receiver's arguments, so the receiver is never invoked on it. -/
theorem processBatchedBlocks_only_valid (cv : ChainView) (blks l : List Block)
    (roots : List Nat) (h : processBatchedBlocks cv blks = .ok (l, roots)) :
    l ≠ []
    ∧ (∃ pre, blks = pre ++ l
        ∧ ∀ x ∈ pre, cv.headSlot ≥ x.slot ∧ isProcessedBlock cv x = true)
    ∧ (∀ hne : l ≠ [], cv.dbHasBlock ((l.head hne).parentRoot) = true
        ∨ cv.hasInitSyncBlock ((l.head hne).parentRoot) = true)
    ∧ List.Chain' (fun a c => c.parentRoot = a.root) l
    ∧ roots = l.map (fun x => x.root) := by
  match blks with
  | [] => exact absurd h (by simp [processBatchedBlocks])
  | b :: rest =>
      simp only [processBatchedBlocks] at h
      cases hskip : skipProcessed cv b rest with
      | error e => rw [hskip] at h; exact absurd h (by simp)
      | ok fbp =>
          obtain ⟨fb, frest⟩ := fbp
          rw [hskip] at h
          dsimp only at h
          by_cases hpar : (cv.dbHasBlock fb.parentRoot = true ∨ cv.hasInitSyncBlock fb.parentRoot = true)
          · rw [if_pos hpar] at h
            by_cases hlin : checkLinear fb.root frest = true
            · rw [if_pos hlin] at h
              injection h with h1
              injection h1 with h2 h3
              subst h2
              subst h3
              obtain ⟨pre, hpre, hall⟩ := skipProcessed_spec cv rest b fb frest hskip
              exact ⟨by simp, ⟨pre, hpre, hall⟩, fun hne => by simpa using hpar,
                chain_of_checkLinear frest fb hlin, rfl⟩
            · rw [if_neg hlin] at h; exact absurd h (by simp)
          · rw [if_neg hpar] at h; exact absurd h (by simp)

/-- Concrete instance of the driver's batch validation: the head has already
processed the first block (slot 4, root 1, in the db), the remainder starts
at slot 6 with known parent 100 and is linear, so the receiver gets exactly
the two remaining blocks and their roots. -/
theorem processBatchedBlocks_only_valid_app :
    ([⟨6, 0, 100, 2⟩, ⟨7, 0, 2, 3⟩] : List Block) ≠ []
    ∧ (∃ pre, ([⟨4, 0, 99, 1⟩, ⟨6, 0, 100, 2⟩, ⟨7, 0, 2, 3⟩] : List Block)
          = pre ++ [⟨6, 0, 100, 2⟩, ⟨7, 0, 2, 3⟩]
        ∧ ∀ x ∈ pre, (⟨5, 0, fun r => r == 100 || r == 1, fun _ => false⟩ : ChainView).headSlot ≥ x.slot
            ∧ isProcessedBlock ⟨5, 0, fun r => r == 100 || r == 1, fun _ => false⟩ x = true)
    ∧ (∀ hne : ([⟨6, 0, 100, 2⟩, ⟨7, 0, 2, 3⟩] : List Block) ≠ [],
        (⟨5, 0, fun r => r == 100 || r == 1, fun _ => false⟩ : ChainView).dbHasBlock
            ((([⟨6, 0, 100, 2⟩, ⟨7, 0, 2, 3⟩] : List Block).head hne).parentRoot) = true
        ∨ (⟨5, 0, fun r => r == 100 || r == 1, fun _ => false⟩ : ChainView).hasInitSyncBlock
            ((([⟨6, 0, 100, 2⟩, ⟨7, 0, 2, 3⟩] : List Block).head hne).parentRoot) = true)
    ∧ List.Chain' (fun a c => c.parentRoot = a.root) ([⟨6, 0, 100, 2⟩, ⟨7, 0, 2, 3⟩] : List Block)
    ∧ ([2, 3] : List Nat) = ([⟨6, 0, 100, 2⟩, ⟨7, 0, 2, 3⟩] : List Block).map (fun x => x.root) :=
  processBatchedBlocks_only_valid ⟨5, 0, fun r => r == 100 || r == 1, fun _ => false⟩
    [⟨4, 0, 99, 1⟩, ⟨6, 0, 100, 2⟩, ⟨7, 0, 2, 3⟩]
    [⟨6, 0, 100, 2⟩, ⟨7, 0, 2, 3⟩] [2, 3] rfl

/-- A signed beacon block as gossip admission sees it; block = none models
blk.Block == nil (Block.root carries HashTreeRoot(blk.Block); the root
computation error path, which yields Ignore, is not modelled). -/
structure SignedBeaconBlock where
  block : Option Block
deriving DecidableEq, Repr

/-- A pubsub message: sender id and decode outcome; decoded = none models
both a decodePubsubMessage failure and a non-SignedBeaconBlock payload,
which the source rejects alike. -/
structure PubsubMessage where
  pid : Nat
  decoded : Option SignedBeaconBlock
deriving DecidableEq, Repr

/-- The three pubsub validation outcomes. -/
inductive ValidationResult where
  | accept
  | reject
  | ignore
deriving DecidableEq, Repr

/-- A Go context as the gossip code reads it: err = some () models
ctx.Err() != nil (canceled or deadline exceeded). -/
structure Ctx where
  err : Option Unit
deriving DecidableEq, Repr

/-- Which of the delegated checks of Service.validateBeaconBlock fails
first, if any. -/
inductive DeepFailure where
  | descendant
  | stateSummary
  | stateByRoot
  | signature
  | processSlots
  | proposerIndex
deriving DecidableEq, Repr

/-- In the source, setBadBlock is called for VerifyBlkDescendant,
VerifyBlockSignature and proposer-index failures, but not for state
recovery/lookup/processing errors. -/
def DeepFailure.marksBad : DeepFailure → Bool
  | .descendant => true
  | .signature => true
  | .proposerIndex => true
  | _ => false

/-- The external collaborators consumed by validateBeaconBlockPubSub: own
peer id, initial-sync flag, block store, slot-time and metric checks, the
finalized epoch's start slot, and the outcome of the delegated deep checks
(chain.VerifyBlkDescendant, state access, signature, proposer index). -/
structure GossipEnv where
  selfPid : Nat
  syncing : Bool
  dbHasBlock : Nat → Bool
  slotTimeOk : Nat → Bool
  arrivalMetricOk : Nat → Bool
  finalizedStartSlot : Nat
  deepResult : Block → Option DeepFailure

/-- The caches owned by the gossip service: seen (slot, proposer) pairs, bad
block roots, pending block roots. The Go caches are bounded LRU maps keyed
by Bytes32 concatenations (an injective pairing); eviction is not modelled. -/
structure GossipState where
  seenBlockCache : List (Nat × Nat)
  badBlockCache : List Nat
  pendingBlocks : List Nat
deriving DecidableEq, Repr

/-- Embeds Service.hasSeenBlockIndexSlot. -/
def hasSeenBlockIndexSlot (st : GossipState) (slot proposerIdx : Nat) : Bool :=
  st.seenBlockCache.contains (slot, proposerIdx)

/-- Embeds Service.setSeenBlockIndexSlot. -/
def setSeenBlockIndexSlot (st : GossipState) (slot proposerIdx : Nat) : GossipState :=
  { st with seenBlockCache := (slot, proposerIdx) :: st.seenBlockCache }

/-- Embeds Service.hasBadBlock. -/
def hasBadBlock (st : GossipState) (root : Nat) : Bool :=
  st.badBlockCache.contains root

/-- Embeds Service.setBadBlock: do not mark the block bad when the context
has erred. -/
def setBadBlock (ctx : Ctx) (st : GossipState) (root : Nat) : GossipState :=
  if ctx.err.isSome then st
  else { st with badBlockCache := root :: st.badBlockCache }

/-- Modelled from the spec: insertBlockToPendingQueue (the pending-queue
file is not among the vendored sources) parks the block under its root; its
error path also yields Ignore in the caller. -/
def insertPending (st : GossipState) (root : Nat) : GossipState :=
  { st with pendingBlocks := root :: st.pendingBlocks }

/-- Embeds Service.validateBeaconBlock: on a delegated failure the block is
marked bad exactly for the descendant/signature/proposer-index cases, and
the error propagates; otherwise the state is untouched. -/
def validateBeaconBlock (env : GossipEnv) (ctx : Ctx) (st : GossipState) (b : Block) :
    Option DeepFailure × GossipState :=
  match env.deepResult b with
  | none => (none, st)
  | some f => (some f, if f.marksBad then setBadBlock ctx st b.root else st)

/-- Embeds Service.validateBeaconBlockPubSub, check for check in source
order: own message, syncing, decode/type/nil-block, seen (slot, proposer),
block already stored, bad parent (marking this block bad), already pending,
slot timing, arrival metric, finalized slot, unknown parent (park and
ignore), then the delegated deep validation. The block feed, spans and logs
are effect-free and not modelled. -/
def validateBeaconBlockPubSub (env : GossipEnv) (ctx : Ctx) (st : GossipState)
    (msg : PubsubMessage) : ValidationResult × GossipState :=
  if msg.pid = env.selfPid then (.accept, st)
  else if env.syncing then (.ignore, st)
  else
    match msg.decoded with
    | none => (.reject, st)
    | some blk =>
      match blk.block with
      | none => (.reject, st)
      | some b =>
        if hasSeenBlockIndexSlot st b.slot b.proposerIndex then (.ignore, st)
        else if env.dbHasBlock b.root then (.ignore, st)
        else if hasBadBlock st b.parentRoot then (.reject, setBadBlock ctx st b.root)
        else if st.pendingBlocks.contains b.root then (.ignore, st)
        else if ¬env.slotTimeOk b.slot = true then (.ignore, st)
        else if ¬env.arrivalMetricOk b.slot = true then (.ignore, st)
        else if env.finalizedStartSlot ≥ b.slot then (.ignore, st)
        else if ¬env.dbHasBlock b.parentRoot = true then (.ignore, insertPending st b.root)
        else
          match validateBeaconBlock env ctx st b with
          | (none, st1) => (.accept, st1)
          | (some _, st1) => (.reject, st1)

/-- Modelled from the spec: gossip admission records an accepted block's
(slot, proposer_index) pair as seen — the recording call
setSeenBlockIndexSlot is defined in the vendored gossip file ("Set block
proposer index and slot as seen for incoming blocks") but its caller, the
block subscriber, is not vendored; per spec section 4.6, admission of an
accepted block makes a repeat of the same pair IGNOREd. -/
def gossipAdmission (env : GossipEnv) (ctx : Ctx) (st : GossipState)
    (msg : PubsubMessage) : ValidationResult × GossipState :=
  match validateBeaconBlockPubSub env ctx st msg, msg.decoded with
  | (.accept, st1), some blk =>
      match blk.block with
      | some b => (.accept, setSeenBlockIndexSlot st1 b.slot b.proposerIndex)
      | none => (.accept, st1)
  | (r, st1), _ => (r, st1)

/-- C8: when the context has erred, setBadBlock leaves the bad-block cache
unchanged, and every subsequent hasBadBlock query answers as before. -/
theorem setBadBlock_ctx_error_noop (ctx : Ctx) (st : GossipState) (root : Nat)
    (h : ctx.err.isSome = true) :
    setBadBlock ctx st root = st
    ∧ ∀ r, hasBadBlock (setBadBlock ctx st root) r = hasBadBlock st r := by
  have heq : setBadBlock ctx st root = st := by simp [setBadBlock, h]
  exact ⟨heq, fun r => by rw [heq]⟩

/-- Concrete instance: a canceled context cannot mark root 7 bad. -/
theorem setBadBlock_ctx_error_noop_app :
    setBadBlock ⟨some ()⟩ ⟨[], [5], []⟩ 7 = ⟨[], [5], []⟩
    ∧ ∀ r, hasBadBlock (setBadBlock ⟨some ()⟩ ⟨[], [5], []⟩ 7) r
        = hasBadBlock ⟨[], [5], []⟩ r :=
  setBadBlock_ctx_error_noop ⟨some ()⟩ ⟨[], [5], []⟩ 7 rfl

/-- C7: gossip admission is idempotent on (slot, proposer_index): once a
block is admitted with ACCEPT — which records its (slot, proposer_index)
pair in the seen-block cache — any later submission of a block with the same
pair (from another peer, decoding to a proper block) is classified IGNORE,
the seen check short-circuiting the pipeline. -/
theorem gossip_admission_idempotent
    (env env2 : GossipEnv) (ctx ctx2 : Ctx) (st st' : GossipState)
    (msg msg2 : PubsubMessage) (blk blk2 : SignedBeaconBlock) (b b2 : Block)
    (hdec : msg.decoded = some blk) (hblk : blk.block = some b)
    (h1 : gossipAdmission env ctx st msg = (.accept, st'))
    (hpid2 : ¬msg2.pid = env2.selfPid)
    (hdec2 : msg2.decoded = some blk2) (hblk2 : blk2.block = some b2)
    (hslot : b2.slot = b.slot) (hprop : b2.proposerIndex = b.proposerIndex) :
    (validateBeaconBlockPubSub env2 ctx2 st' msg2).1 = ValidationResult.ignore := by
  obtain ⟨st1, hst'⟩ : ∃ st1, st' = setSeenBlockIndexSlot st1 b.slot b.proposerIndex := by
    cases hv : validateBeaconBlockPubSub env ctx st msg with
    | mk r st1 =>
        cases r with
        | accept =>
            refine ⟨st1, ?_⟩
            unfold gossipAdmission at h1
            rw [hv, hdec] at h1
            dsimp only at h1
            rw [hblk] at h1
            dsimp only at h1
            injection h1 with h1a h1b
            exact h1b.symm
        | reject =>
            unfold gossipAdmission at h1
            rw [hv, hdec] at h1
            dsimp only at h1
            exact absurd (congrArg Prod.fst h1) (by simp)
        | ignore =>
            unfold gossipAdmission at h1
            rw [hv, hdec] at h1
            dsimp only at h1
            exact absurd (congrArg Prod.fst h1) (by simp)
  subst hst'
  unfold validateBeaconBlockPubSub
  rw [if_neg hpid2]
  by_cases hsync : env2.syncing = true
  · rw [if_pos hsync]
  · rw [if_neg hsync, hdec2]
    dsimp only
    rw [hblk2]
    dsimp only
    have hseen : hasSeenBlockIndexSlot (setSeenBlockIndexSlot st1 b.slot b.proposerIndex)
        b2.slot b2.proposerIndex = true := by
      simp [hasSeenBlockIndexSlot, setSeenBlockIndexSlot, hslot, hprop]
    rw [if_pos hseen]

/-- The collaborators for the concrete idempotence run: the parent root 5 is
in the store, timing and deep validation pass. -/
def gossipEnvC7 : GossipEnv :=
  { selfPid := 0, syncing := false, dbHasBlock := fun r => r == 5,
    slotTimeOk := fun _ => true, arrivalMetricOk := fun _ => true,
    finalizedStartSlot := 0, deepResult := fun _ => none }

/-- Concrete instance: after the block (slot 10, proposer 3) is admitted (its
pair entering the seen cache), a second block with the same pair from another
peer is IGNOREd. -/
theorem gossip_admission_idempotent_app :
    (validateBeaconBlockPubSub gossipEnvC7 ⟨none⟩ ⟨[(10, 3)], [], []⟩
        ⟨2, some ⟨some ⟨10, 3, 5, 8⟩⟩⟩).1 = ValidationResult.ignore :=
  gossip_admission_idempotent gossipEnvC7 gossipEnvC7 ⟨none⟩ ⟨none⟩
    ⟨[], [], []⟩ ⟨[(10, 3)], [], []⟩
    ⟨1, some ⟨some ⟨10, 3, 5, 7⟩⟩⟩ ⟨2, some ⟨some ⟨10, 3, 5, 8⟩⟩⟩
    ⟨some ⟨10, 3, 5, 7⟩⟩ ⟨some ⟨10, 3, 5, 8⟩⟩ ⟨10, 3, 5, 7⟩ ⟨10, 3, 5, 8⟩
    rfl rfl rfl (by decide) rfl rfl rfl rfl

/-- The Sync Queue machine states (spec section 3, State-Machine Record). -/
inductive MState where
  | new
  | scheduled
  | dataParsed
  | skipped
  | sent
deriving DecidableEq, Repr

/-- A per-range state machine of the Sync Queue: its bucket's start slot,
current state and fetched blocks. -/
structure Machine where
  start : Nat
  state : MState
  blocks : List Block
deriving DecidableEq, Repr

/-- Fetch-response errors relevant to the data-received handler (spec
section 7: SLOT_IS_TOO_HIGH, INVALID_FETCHED_DATA). -/
inductive FetchError where
  | slotTooHigh
  | invalidData
deriving DecidableEq, Repr

/-- A fetch response pushed to the queue: requested start slot, blocks,
serving peer and error, mirroring fetchRequestResponse of the test file. -/
structure FetchResponse where
  start : Nat
  blocks : List Block
  pid : Nat
  err : Option FetchError
deriving DecidableEq, Repr

/-- Errors returned by the queue's event handlers (errInvalidInitialState
and the propagated fetch errors). -/
inductive QueueError where
  | invalidInitialState
  | slotTooHigh
  | invalidData
deriving DecidableEq, Repr

/-- The largest machine start slot strictly below s, if any. -/
def maxStartBelow (s : Nat) : List Machine → Option Nat
  | [] => none
  | m :: rest =>
    if m.start < s then
      match maxStartBelow s rest with
      | none => some m.start
      | some a => some (max m.start a)
    else maxStartBelow s rest

theorem maxStartBelow_none (s : Nat) :
    ∀ ms : List Machine, maxStartBelow s ms = none → ∀ m ∈ ms, ¬m.start < s := by
  intro ms
  induction ms with
  | nil => intro _ m hm; simp at hm
  | cons c rest ih =>
      intro h m hm
      simp only [maxStartBelow] at h
      by_cases hc : c.start < s
      · rw [if_pos hc] at h
        cases hr : maxStartBelow s rest <;> rw [hr] at h <;> exact absurd h (by simp)
      · rw [if_neg hc] at h
        rcases List.mem_cons.mp hm with rfl | hm'
        · exact hc
        · exact ih h m hm'

theorem maxStartBelow_spec (s : Nat) :
    ∀ (ms : List Machine) (v : Nat), maxStartBelow s ms = some v →
      v < s ∧ (∃ m ∈ ms, m.start = v) ∧ ∀ m ∈ ms, m.start < s → m.start ≤ v := by
  intro ms
  induction ms with
  | nil => intro v h; simp [maxStartBelow] at h
  | cons c rest ih =>
      intro v h
      simp only [maxStartBelow] at h
      by_cases hc : c.start < s
      · rw [if_pos hc] at h
        cases hr : maxStartBelow s rest with
        | none =>
            rw [hr] at h
            injection h with h
            subst h
            refine ⟨hc, ⟨c, by simp⟩, ?_⟩
            intro m hm hms
            rcases List.mem_cons.mp hm with rfl | hm'
            · exact le_refl _
            · exact absurd hms (maxStartBelow_none s rest hr m hm')
        | some a =>
            rw [hr] at h
            injection h with h
            subst h
            obtain ⟨ha, ⟨w, hw, hwv⟩, hmax⟩ := ih a hr
            refine ⟨by omega, ?_, ?_⟩
            · rcases Nat.le_total c.start a with hle | hle
              · exact ⟨w, by simp [hw], by omega⟩
              · exact ⟨c, by simp, by omega⟩
            · intro m hm hms
              rcases List.mem_cons.mp hm with rfl | hm'
              · exact Nat.le_max_left _ _
              · exact le_trans (hmax m hm' hms) (Nat.le_max_right _ _)
      · rw [if_neg hc] at h
        obtain ⟨ha, ⟨w, hw, hwv⟩, hmax⟩ := ih v h
        refine ⟨ha, ⟨w, by simp [hw], hwv⟩, ?_⟩
        intro m hm hms
        rcases List.mem_cons.mp hm with rfl | hm'
        · exact absurd hms hc
        · exact hmax m hm' hms

/-- Modelled from the spec: the slot-too-high side effect of the Sync
Queue's data-received handler (blocks_queue.go is not vendored) — the
machine covering the immediately preceding range, i.e. the one with the
largest start slot below the response's start, is reset to NEW. -/
def resetPrevious (ms : List Machine) (s : Nat) : List Machine :=
  match maxStartBelow s ms with
  | none => ms
  | some v => ms.map (fun m => if m.start = v then { m with state := MState.new } else m)

/-- Modelled from the spec: onDataReceivedEvent of the Sync Queue
(blocks_queue.go is not vendored; behavior per the FSM table of spec
section 4.5 and the vendored handler tests): a non-SCHEDULED machine fails
with the invalid-initial-state error; a slot-too-high response returns that
error, keeps the machine SCHEDULED and resets the previous machine to NEW;
other fetch errors keep the machine SCHEDULED (peer penalty not modelled);
a well-formed response moves the machine to DATA_PARSED, attaching the
blocks and peer. The result is (updated machine list, the machine's next
state and data, returned error). -/
def onDataReceived (ms : List Machine) (m : Machine) (resp : FetchResponse) :
    List Machine × Machine × Option QueueError :=
  if ¬m.state = MState.scheduled then (ms, m, some QueueError.invalidInitialState)
  else
    match resp.err with
    | some FetchError.slotTooHigh =>
        (resetPrevious ms resp.start, m, some QueueError.slotTooHigh)
    | some FetchError.invalidData => (ms, m, some QueueError.invalidData)
    | none => (ms, { m with state := MState.dataParsed, blocks := resp.blocks }, none)

/-- C6: a SCHEDULED machine receiving a slot-too-high response returns that
error and stays SCHEDULED, while the side effect resets exactly the machine
with the largest start slot below the response's start to NEW, leaving all
other machines unchanged (the map rewrites only the machine at that start). -/
theorem onDataReceived_slotTooHigh_resets_previous
    (ms : List Machine) (m : Machine) (resp : FetchResponse) (p : Machine)
    (hstate : m.state = MState.scheduled)
    (herr : resp.err = some FetchError.slotTooHigh)
    (hp : p ∈ ms) (hplt : p.start < resp.start)
    (hmax : ∀ x ∈ ms, x.start < resp.start → x.start ≤ p.start) :
    onDataReceived ms m resp
      = (ms.map (fun x => if x.start = p.start then { x with state := MState.new } else x),
         m, some QueueError.slotTooHigh) := by
  have hmx : maxStartBelow resp.start ms = some p.start := by
    cases h : maxStartBelow resp.start ms with
    | none => exact absurd hplt (maxStartBelow_none _ ms h p hp)
    | some v =>
        obtain ⟨hv, ⟨w, hw, hwv⟩, hmaxv⟩ := maxStartBelow_spec _ ms v h
        have h1 : v ≤ p.start := hwv ▸ hmax w hw (by omega)
        have h2 : p.start ≤ v := hmaxv p hp hplt
        rw [show v = p.start from by omega]
  unfold onDataReceived
  rw [if_neg (by simp [hstate]), herr]
  dsimp only
  unfold resetPrevious
  rw [hmx]

/-- Concrete instance, mirroring the vendored handler test: with a SKIPPED
machine at start 250 and a slot-too-high response for start 256, the 250
machine is reset to NEW, the receiving machine stays SCHEDULED, and the
error is returned. -/
theorem onDataReceived_slotTooHigh_resets_previous_app :
    onDataReceived [⟨250, MState.skipped, []⟩] ⟨256, MState.scheduled, []⟩
        ⟨256, [], 0, some FetchError.slotTooHigh⟩
      = ([⟨250, MState.skipped, []⟩].map
          (fun x => if x.start = 250 then { x with state := MState.new } else x),
         ⟨256, MState.scheduled, []⟩, some QueueError.slotTooHigh) :=
  onDataReceived_slotTooHigh_resets_previous
    [⟨250, MState.skipped, []⟩] ⟨256, MState.scheduled, []⟩
    ⟨256, [], 0, some FetchError.slotTooHigh⟩ ⟨250, MState.skipped, []⟩
    rfl rfl (by simp) (by decide) (by decide)

/-- The ready-to-send guard of spec section 4.5: every machine with a lower
start slot has terminated (SKIPPED or SENT). -/
def readyGuard (ms : List Machine) (m : Machine) : Prop :=
  ∀ x ∈ ms, x.start < m.start → (x.state = MState.skipped ∨ x.state = MState.sent)

instance (ms : List Machine) (m : Machine) : Decidable (readyGuard ms m) := by
  unfold readyGuard
  infer_instance

/-- Modelled from the spec: onReadyToSendEvent of the Sync Queue
(blocks_queue.go is not vendored; behavior per the FSM table of spec section
4.5 and the vendored handler tests): a non-DATA_PARSED machine keeps its
state (invalid-initial-state error, not modelled in the result); an empty
blocks list yields SKIPPED without sending; when every lower-start machine
has terminated the machine publishes (start, blocks) on the output channel
and becomes SENT; otherwise it stays DATA_PARSED and publishes nothing. -/
def onReadyToSend (ms : List Machine) (m : Machine) :
    MState × Option (Nat × List Block) :=
  if ¬m.state = MState.dataParsed then (m.state, none)
  else if m.blocks = [] then (MState.skipped, none)
  else if readyGuard ms m then (MState.sent, some (m.start, m.blocks))
  else (MState.dataParsed, none)

/-- A Sync Queue configuration for the delivery discipline: the machine
window and the log of batches published so far (appended at the tail). -/
structure QState where
  machines : List Machine
  log : List (Nat × List Block)

/-- Modelled from the spec: the delivery-relevant transitions of the Sync
Queue FSM grid (spec section 4.5). schedule moves a NEW machine to SCHEDULED
or (past the highest expected slot) SKIPPED; dataParse attaches a response
to a SCHEDULED machine; dataError leaves the configuration unchanged (the
machine stays SCHEDULED); readySkip retires an empty DATA_PARSED machine;
readyEmit publishes a non-empty DATA_PARSED machine's batch when every
lower-start machine has terminated; extendWindow adds a fresh NEW machine
above the window. Per the strict-order paragraph of section 4.5, SENT and
SKIPPED are terminal within one window generation: the skipped-timeout
revival and stale-epoch rows, which replace the window wholesale, are
outside this sub-model. -/
inductive QStep : QState → QState → Prop where
  | schedule (q : QState) (i : Nat) (h : i < q.machines.length) (st2 : MState)
      (hnew : (q.machines.get ⟨i, h⟩).state = MState.new)
      (hst2 : st2 = MState.scheduled ∨ st2 = MState.skipped) :
      QStep q ⟨q.machines.set i { q.machines.get ⟨i, h⟩ with state := st2 }, q.log⟩
  | dataParse (q : QState) (i : Nat) (h : i < q.machines.length) (bs : List Block)
      (hsch : (q.machines.get ⟨i, h⟩).state = MState.scheduled) :
      QStep q ⟨q.machines.set i
        { q.machines.get ⟨i, h⟩ with state := MState.dataParsed, blocks := bs }, q.log⟩
  | dataError (q : QState) : QStep q q
  | readySkip (q : QState) (i : Nat) (h : i < q.machines.length)
      (hdp : (q.machines.get ⟨i, h⟩).state = MState.dataParsed)
      (hemp : (q.machines.get ⟨i, h⟩).blocks = []) :
      QStep q ⟨q.machines.set i { q.machines.get ⟨i, h⟩ with state := MState.skipped }, q.log⟩
  | readyEmit (q : QState) (i : Nat) (h : i < q.machines.length)
      (hdp : (q.machines.get ⟨i, h⟩).state = MState.dataParsed)
      (hne : ¬(q.machines.get ⟨i, h⟩).blocks = [])
      (hguard : readyGuard q.machines (q.machines.get ⟨i, h⟩)) :
      QStep q ⟨q.machines.set i { q.machines.get ⟨i, h⟩ with state := MState.sent },
        q.log ++ [((q.machines.get ⟨i, h⟩).start, (q.machines.get ⟨i, h⟩).blocks)]⟩
  | extendWindow (q : QState) (m : Machine) (hnew : m.state = MState.new)
      (hhigh : ∀ x ∈ q.machines, x.start < m.start) :
      QStep q ⟨q.machines ++ [m], q.log⟩

/-- A machine that has terminated: SKIPPED or SENT. -/
def terminated (m : Machine) : Prop :=
  m.state = MState.skipped ∨ m.state = MState.sent

/-- The delivery invariant: machines below any published start have
terminated, every published start is held by a SENT machine, and the log is
non-decreasing in start slot. -/
def QInv (q : QState) : Prop :=
  (∀ e ∈ q.log, ∀ m ∈ q.machines, m.start < e.1 → terminated m)
  ∧ (∀ e ∈ q.log, ∃ m ∈ q.machines, m.start = e.1 ∧ m.state = MState.sent)
  ∧ List.Chain' (fun a b : Nat × List Block => a.1 ≤ b.1) q.log

theorem mem_set_of_mem_of_ne {α : Type} (l : List α) (i : Nat) (x a : α)
    (ha : a ∈ l) (hne : ∀ h : i < l.length, a ≠ l.get ⟨i, h⟩) : a ∈ l.set i x := by
  induction l generalizing i with
  | nil => simp at ha
  | cons c rest ih =>
      cases i with
      | zero =>
          rcases List.mem_cons.mp ha with rfl | ha'
          · exact absurd rfl (hne (by simp))
          · simp only [List.set, List.mem_cons]
            exact Or.inr ha'
      | succ j =>
          rcases List.mem_cons.mp ha with rfl | ha'
          · simp [List.set]
          · simp only [List.set, List.mem_cons]
            refine Or.inr (ih j ha' ?_)
            intro hh heq
            exact hne (by simpa using Nat.succ_lt_succ hh) (by simpa using heq)

theorem mem_set_self {α : Type} (l : List α) (i : Nat) (x : α) (h : i < l.length) :
    x ∈ l.set i x := by
  induction l generalizing i with
  | nil => simp at h
  | cons c rest ih =>
      cases i with
      | zero => simp [List.set]
      | succ j =>
          simp only [List.set, List.mem_cons]
          exact Or.inr (ih j (by simpa using h))

theorem QInv_set_nonterminated (q : QState) (i : Nat) (h : i < q.machines.length)
    (y : Machine) (hstart : y.start = (q.machines.get ⟨i, h⟩).start)
    (hnt : ¬terminated (q.machines.get ⟨i, h⟩)) (hq : QInv q) :
    QInv ⟨q.machines.set i y, q.log⟩ := by
  obtain ⟨hA, hB, hC⟩ := hq
  refine ⟨?_, ?_, hC⟩
  · intro e he x hx hlt
    rcases List.mem_or_eq_of_mem_set hx with hx' | rfl
    · exact hA e he x hx' hlt
    · exfalso
      have hgm : q.machines.get ⟨i, h⟩ ∈ q.machines := List.get_mem _ _ _
      exact hnt (hA e he _ hgm (by rw [← hstart]; exact hlt))
  · intro e he
    obtain ⟨w, hw, hws, hwsent⟩ := hB e he
    have hne : ∀ hh : i < q.machines.length, w ≠ q.machines.get ⟨i, hh⟩ := by
      intro hh heq
      rw [heq] at hwsent
      exact hnt (Or.inr hwsent)
    exact ⟨w, mem_set_of_mem_of_ne _ _ _ _ hw hne, hws, hwsent⟩

theorem not_terminated_of_state {m : Machine} {s : MState} (hs : m.state = s)
    (h1 : ¬s = MState.skipped) (h2 : ¬s = MState.sent) : ¬terminated m := by
  rintro (ht | ht) <;> rw [hs] at ht
  · exact h1 ht
  · exact h2 ht

theorem QStep_inv {q q2 : QState} (hq : QInv q) (hs : QStep q q2) : QInv q2 := by
  cases hs with
  | schedule i h st2 hnew hst2 =>
      exact QInv_set_nonterminated q i h _ rfl (not_terminated_of_state hnew (by decide) (by decide)) hq
  | dataParse i h bs hsch =>
      exact QInv_set_nonterminated q i h _ rfl (not_terminated_of_state hsch (by decide) (by decide)) hq
  | dataError => exact hq
  | readySkip i h hdp hemp =>
      exact QInv_set_nonterminated q i h _ rfl (not_terminated_of_state hdp (by decide) (by decide)) hq
  | readyEmit i h hdp hne hguard =>
      obtain ⟨hA, hB, hC⟩ := hq
      have hgm : q.machines.get ⟨i, h⟩ ∈ q.machines := List.get_mem _ _ _
      have hnt := not_terminated_of_state hdp (by decide) (by decide)
      have hub : ∀ e ∈ q.log, e.1 ≤ (q.machines.get ⟨i, h⟩).start := by
        intro e he
        by_contra hgt
        exact hnt (hA e he _ hgm (by omega))
      refine ⟨?_, ?_, ?_⟩
      · intro e he x hx hlt
        rcases List.mem_append.mp he with he' | he'
        · rcases List.mem_or_eq_of_mem_set hx with hx' | rfl
          · exact hA e he' x hx' hlt
          · exact Or.inr rfl
        · have he2 : e = ((q.machines.get ⟨i, h⟩).start, (q.machines.get ⟨i, h⟩).blocks) := by
            simpa using he'
          rcases List.mem_or_eq_of_mem_set hx with hx' | rfl
          · rcases hguard x hx' (by rw [he2] at hlt; exact hlt) with h1 | h1
            · exact Or.inl h1
            · exact Or.inr h1
          · exfalso
            rw [he2] at hlt
            simp at hlt
      · intro e he
        rcases List.mem_append.mp he with he' | he'
        · obtain ⟨w, hw, hws, hwsent⟩ := hB e he'
          have hwne : ∀ hh : i < q.machines.length, w ≠ q.machines.get ⟨i, hh⟩ := by
            intro hh heq
            rw [heq] at hwsent
            exact hnt (Or.inr hwsent)
          exact ⟨w, mem_set_of_mem_of_ne _ _ _ _ hw hwne, hws, hwsent⟩
        · have he2 : e = ((q.machines.get ⟨i, h⟩).start, (q.machines.get ⟨i, h⟩).blocks) := by
            simpa using he'
          refine ⟨{ q.machines.get ⟨i, h⟩ with state := MState.sent }, ?_, by rw [he2], rfl⟩
          exact mem_set_self _ _ _ h
      · rw [List.chain'_append]
        refine ⟨hC, by simp, ?_⟩
        intro x hx y hy
        have hxl : x ∈ q.log := List.mem_of_mem_getLast? hx
        have hyv : y = ((q.machines.get ⟨i, h⟩).start, (q.machines.get ⟨i, h⟩).blocks) := by
          simp at hy
          exact hy.symm
        rw [hyv]
        exact hub x hxl
  | extendWindow m hnew hhigh =>
      obtain ⟨hA, hB, hC⟩ := hq
      refine ⟨?_, ?_, hC⟩
      · intro e he x hx hlt
        rcases List.mem_append.mp hx with hx' | hx'
        · exact hA e he x hx' hlt
        · exfalso
          have hx2 : x = m := by simpa using hx'
          obtain ⟨w, hw, hws, -⟩ := hB e he
          have hwm := hhigh w hw
          rw [hx2] at hlt
          omega
      · intro e he
        obtain ⟨w, hw, hws, hwsent⟩ := hB e he
        exact ⟨w, List.mem_append.mpr (Or.inl hw), hws, hwsent⟩

theorem QInv_reachable {q q2 : QState} (h : Relation.ReflTransGen QStep q q2)
    (hq : QInv q) : QInv q2 := by
  induction h with
  | refl => exact hq
  | tail h1 h2 ih => exact QStep_inv ih h2

/-- C5: the delivery handler sends (publishing the machine's batch) exactly
when every lower-start machine has terminated (SKIPPED or SENT), staying in
DATA_PARSED with no emission otherwise; consequently, along every run of the
delivery discipline from a state with an empty log, the batches on the
output channel appear in non-decreasing start-slot order. -/
theorem readyToSend_strict_order :
    (∀ (ms : List Machine) (m : Machine),
      m.state = MState.dataParsed → ¬m.blocks = [] →
      (readyGuard ms m →
          onReadyToSend ms m = (MState.sent, some (m.start, m.blocks)))
        ∧ (¬readyGuard ms m → onReadyToSend ms m = (MState.dataParsed, none)))
    ∧ (∀ q q2 : QState, q.log = [] → Relation.ReflTransGen QStep q q2 →
        List.Chain' (fun a b : Nat × List Block => a.1 ≤ b.1) q2.log) := by
  constructor
  · intro ms m hdp hne
    constructor
    · intro hg
      unfold onReadyToSend
      rw [if_neg (by simp [hdp]), if_neg hne, if_pos hg]
    · intro hg
      unfold onReadyToSend
      rw [if_neg (by simp [hdp]), if_neg hne, if_neg hg]
  · intro q q2 hlog hreach
    have hinv : QInv q := by
      refine ⟨?_, ?_, ?_⟩ <;> simp [hlog]
    exact (QInv_reachable hreach hinv).2.2

/-- Concrete instance: with the lower machine at 256 SKIPPED, the machine at
320 sends its batch; and a two-emission run (starts 10 then 20) produces a
log in non-decreasing start order. -/
theorem readyToSend_strict_order_app :
    onReadyToSend [⟨256, MState.skipped, []⟩] ⟨320, MState.dataParsed, [⟨1, 0, 0, 1⟩]⟩
      = (MState.sent, some (320, [⟨1, 0, 0, 1⟩]))
    ∧ List.Chain' (fun a b : Nat × List Block => a.1 ≤ b.1)
        (QState.mk
          [⟨10, MState.sent, [⟨1, 0, 0, 1⟩]⟩, ⟨20, MState.sent, [⟨2, 0, 1, 2⟩]⟩]
          [(10, [⟨1, 0, 0, 1⟩]), (20, [⟨2, 0, 1, 2⟩])]).log := by
  obtain ⟨hhandler, horder⟩ := readyToSend_strict_order
  refine ⟨(hhandler [⟨256, MState.skipped, []⟩] ⟨320, MState.dataParsed, [⟨1, 0, 0, 1⟩]⟩
      rfl (by decide)).1 (by decide), ?_⟩
  refine horder
    (QState.mk [⟨10, MState.dataParsed, [⟨1, 0, 0, 1⟩]⟩, ⟨20, MState.dataParsed, [⟨2, 0, 1, 2⟩]⟩] [])
    _ rfl ?_
  have s1 : QStep
      (QState.mk [⟨10, MState.dataParsed, [⟨1, 0, 0, 1⟩]⟩, ⟨20, MState.dataParsed, [⟨2, 0, 1, 2⟩]⟩] [])
      (QState.mk [⟨10, MState.sent, [⟨1, 0, 0, 1⟩]⟩, ⟨20, MState.dataParsed, [⟨2, 0, 1, 2⟩]⟩]
        [(10, [⟨1, 0, 0, 1⟩])]) :=
    QStep.readyEmit
      (QState.mk [⟨10, MState.dataParsed, [⟨1, 0, 0, 1⟩]⟩, ⟨20, MState.dataParsed, [⟨2, 0, 1, 2⟩]⟩] [])
      0 (by decide) rfl (by decide) (by decide)
  have s2 : QStep
      (QState.mk [⟨10, MState.sent, [⟨1, 0, 0, 1⟩]⟩, ⟨20, MState.dataParsed, [⟨2, 0, 1, 2⟩]⟩]
        [(10, [⟨1, 0, 0, 1⟩])])
      (QState.mk [⟨10, MState.sent, [⟨1, 0, 0, 1⟩]⟩, ⟨20, MState.sent, [⟨2, 0, 1, 2⟩]⟩]
        [(10, [⟨1, 0, 0, 1⟩]), (20, [⟨2, 0, 1, 2⟩])]) :=
    QStep.readyEmit
      (QState.mk [⟨10, MState.sent, [⟨1, 0, 0, 1⟩]⟩, ⟨20, MState.dataParsed, [⟨2, 0, 1, 2⟩]⟩]
        [(10, [⟨1, 0, 0, 1⟩])])
      1 (by decide) rfl (by decide) (by decide)
  exact Relation.ReflTransGen.tail (Relation.ReflTransGen.single s1) s2
